import Mathlib

/-!
Verification of the time-machine data structure: a container that records
mutations to an opaque state as reversible deltas on a single timeline and
answers queries as of any timestamp by seeking between a forward log of
pending deltas and a reverse log of applied deltas.

The Rust source is embedded shallowly: the in-place mutation of the machine
is rendered as explicit state passing, the trait object for the state
capability becomes a record of two functions, and the two seek loops become
structural recursions over the corresponding log.
-/

set_option linter.unusedVariables false
set_option linter.unusedSectionVars false

/-- The state capability (the TimeMachineState trait): apply a forward
delta, producing the reverse delta that undoes it, or apply a reverse
delta.  Mutation in place is modelled by returning the new state. -/
structure Cap (S F R : Type) where
  applyForward : S → F → S × R
  applyReverse : S → R → S

/-- Round-trip contract law: applying a forward delta and then the reverse
delta it produced restores the original state. -/
def RoundTrip {S F R : Type} (cap : Cap S F R) : Prop :=
  ∀ s d, cap.applyReverse (cap.applyForward s d).1 (cap.applyForward s d).2 = s

/-- A timestamped payload, the unit stored in either log. -/
structure Timestamped (T D : Type) where
  time : T
  data : D
deriving DecidableEq, Repr

/-- The single error taxonomy member: the requested timestamp precedes the
retention boundary. -/
inductive Error (T : Type) where
  | TimeEvicted (requested boundary : T)
deriving DecidableEq, Repr

/-- The machine.  The reverse log is a deque; it is kept here
most-recently-applied first, so the list head is the back of the deque.
The forward log is a stack kept nearest-pending first, so the list head is
the top of the stack. -/
structure TimeMachine (S F R T : Type) where
  current : S
  reverse : List (Timestamped T (F × R))
  forward : List (Timestamped T F)
  oldest : Option T
deriving DecidableEq

variable {S F R T : Type}

/-- TimeMachine::new - initial state, empty logs, no boundary. -/
def TimeMachine.new (initial : S) : TimeMachine S F R T :=
  { current := initial, reverse := [], forward := [], oldest := none }

variable [LinearOrder T]

/-- check_oldest: fail when a boundary is set and lies strictly above the
requested timestamp. -/
def check_oldest (m : TimeMachine S F R T) (t : T) : Except (Error T) Unit :=
  match m.oldest with
  | some i => if i > t then .error (.TimeEvicted t i) else .ok ()
  | none => .ok ()

/-- The loop of move_forward_to, on the log contents: pop pending entries
while the nearest one's timestamp is not past the target, apply each, and
push it with its derived reverse delta onto the back of the reverse log.
Returns the new state, reverse log and forward log. -/
def moveForwardAux (cap : Cap S F R) (t : T) :
    List (Timestamped T F) → S → List (Timestamped T (F × R)) →
      S × List (Timestamped T (F × R)) × List (Timestamped T F)
  | [], s, rev => (s, rev, [])
  | e :: rest, s, rev =>
    if e.time > t then (s, rev, e :: rest)
    else
      moveForwardAux cap t rest (cap.applyForward s e.data).1
        (⟨e.time, (e.data, (cap.applyForward s e.data).2)⟩ :: rev)

/-- move_forward_to on the machine. -/
def moveForwardTo (cap : Cap S F R) (m : TimeMachine S F R T) (t : T) :
    TimeMachine S F R T :=
  { current := (moveForwardAux cap t m.forward m.current m.reverse).1
    reverse := (moveForwardAux cap t m.forward m.current m.reverse).2.1
    forward := (moveForwardAux cap t m.forward m.current m.reverse).2.2
    oldest := m.oldest }

/-- The loop of move_backward_to, on the log contents: pop applied entries
from the back of the reverse log while their timestamp is past the target,
undo each with its stored reverse delta, and push its forward delta back
onto the forward log. -/
def moveBackwardAux (cap : Cap S F R) (t : T) :
    List (Timestamped T (F × R)) → S → List (Timestamped T F) →
      S × List (Timestamped T (F × R)) × List (Timestamped T F)
  | [], s, fwd => (s, [], fwd)
  | e :: rest, s, fwd =>
    if e.time ≤ t then (s, e :: rest, fwd)
    else
      moveBackwardAux cap t rest (cap.applyReverse s e.data.2)
        (⟨e.time, e.data.1⟩ :: fwd)

/-- move_backward_to on the machine. -/
def moveBackwardTo (cap : Cap S F R) (m : TimeMachine S F R T) (t : T) :
    TimeMachine S F R T :=
  { current := (moveBackwardAux cap t m.reverse m.current m.forward).1
    reverse := (moveBackwardAux cap t m.reverse m.current m.forward).2.1
    forward := (moveBackwardAux cap t m.reverse m.current m.forward).2.2
    oldest := m.oldest }

/-- move_to: forward phase, then backward phase. -/
def move_to (cap : Cap S F R) (m : TimeMachine S F R T) (t : T) :
    TimeMachine S F R T :=
  moveBackwardTo cap (moveForwardTo cap m t) t

/-- change: boundary check, seek, then push the new entry onto the forward
log.  The Result of the Rust method is returned alongside the machine that
the &mut self mutation leaves behind. -/
def change (cap : Cap S F R) (m : TimeMachine S F R T) (delta : F) (t : T) :
    Except (Error T) Unit × TimeMachine S F R T :=
  match check_oldest m t with
  | .error e => (.error e, m)
  | .ok _ =>
    let m1 := move_to cap m t
    (.ok (), { m1 with forward := ⟨t, delta⟩ :: m1.forward })

/-- value_at: boundary check, seek, then read the current state. -/
def value_at (cap : Cap S F R) (m : TimeMachine S F R T) (t : T) :
    Except (Error T) S × TimeMachine S F R T :=
  match check_oldest m t with
  | .error e => (.error e, m)
  | .ok _ =>
    let m1 := move_to cap m t
    (.ok m1.current, m1)

/-- The eviction loop of forget_ancient_history, on the reverse log read
front (oldest) first: pop entries while their timestamp is strictly below
the cut, stopping at the first entry at or past it. -/
def dropOld (t : T) :
    List (Timestamped T (F × R)) → List (Timestamped T (F × R))
  | [] => []
  | e :: rest => if e.time ≥ t then e :: rest else dropOld t rest

/-- forget_ancient_history: seek forward to the cut, discard reverse-log
entries strictly below it, and set the retention boundary. -/
def forget_ancient_history (cap : Cap S F R) (m : TimeMachine S F R T)
    (t : T) : TimeMachine S F R T :=
  let m1 := moveForwardTo cap m t
  { m1 with reverse := (dropOld t m1.reverse.reverse).reverse
            oldest := some t }

/-- The delta type of the repository's test state: integer add, subtract,
multiply and divide. -/
inductive TestTimeMachineDelta where
  | Add (i : Int)
  | Sub (i : Int)
  | Mul (i : Int)
  | Div (i : Int)
deriving DecidableEq, Repr

/-- An integer representable in the source's i32 state type. -/
abbrev In32 (x : Int) : Prop := -2147483648 ≤ x ∧ x < 2147483648

/-- Reduce an integer to the i32 it denotes under two's-complement
wrap-around, the release-mode semantics of Rust integer arithmetic. -/
def wrap32 (x : Int) : Int := (x + 2147483648) % 4294967296 - 2147483648

/-- The repository's test state: a single i32, kept as an integer in the
i32 range with every arithmetic result wrapped back into it. -/
structure TestTimeMachineState where
  val : Int
deriving DecidableEq, Repr

/-- TestTimeMachineState::apply - mutate and return the inverse delta.
Addition, subtraction and multiplication wrap as in a release build (a
debug build panics on overflow instead); division truncates toward zero,
and the two cases where the source division panics in every build (a zero
divisor, or the minimum value divided by minus one) are given the wrapped
value here and excluded by hypothesis from every round-trip law below. -/
def TestTimeMachineState.apply (s : TestTimeMachineState) :
    TestTimeMachineDelta → TestTimeMachineState × TestTimeMachineDelta
  | .Add i => (⟨wrap32 (s.val + i)⟩, .Sub i)
  | .Sub i => (⟨wrap32 (s.val - i)⟩, .Add i)
  | .Mul i => (⟨wrap32 (s.val * i)⟩, .Div i)
  | .Div i => (⟨wrap32 (Int.tdiv s.val i)⟩, .Mul i)

/-- The TimeMachineState impl of the test state: both directions delegate
to apply, the reverse direction dropping the returned delta. -/
def testCap :
    Cap TestTimeMachineState TestTimeMachineDelta TestTimeMachineDelta :=
  { applyForward := fun s d => s.apply d
    applyReverse := fun s d => (s.apply d).1 }

/-! ## Analysis definitions -/

/-- Apply a list of forward deltas in order, keeping only the states. -/
def applyList (cap : Cap S F R) (s : S) (ds : List F) : S :=
  ds.foldl (fun s d => (cap.applyForward s d).1) s

/-- Forget the derived reverse delta of a reverse-log entry. -/
def stripR (e : Timestamped T (F × R)) : T × F := (e.time, e.data.1)

/-- View a forward-log entry as a timestamped forward delta. -/
def stripF (e : Timestamped T F) : T × F := (e.time, e.data)

/-- The recorded history, oldest first: the reverse log front-to-back
followed by the forward log nearest-first.  Seeks only shift the boundary
between the two logs, so this list is invariant under seeking. -/
def timeline (m : TimeMachine S F R T) : List (T × F) :=
  (m.reverse.map stripR).reverse ++ m.forward.map stripF

/-- The reverse log is coherent with an initial state: replaying its
forward deltas front-to-back from the initial state reproduces the current
state, and each stored reverse delta is the one derived at its
intermediate state. -/
def Coherent (cap : Cap S F R) (s0 : S) :
    List (Timestamped T (F × R)) → S → Prop
  | [], s => s = s0
  | e :: rest, s =>
      ∃ p, Coherent cap s0 rest p ∧ cap.applyForward p e.data.1 = (s, e.data.2)

/-- Specification-side definition, following the spec's words: a change is
inserted into an ascending-by-timestamp list after every entry whose
timestamp is less than or equal to its own, so the last insertion at a
timestamp ends up latest within its tie group. -/
def insertChange (c : T × F) : List (T × F) → List (T × F)
  | [] => [c]
  | e :: rest => if e.1 ≤ c.1 then e :: insertChange c rest else c :: e :: rest

/-- Specification-side definition: the inserted changes in ascending
timestamp order, ties kept in insertion order. -/
def chronological (cs : List (T × F)) : List (T × F) :=
  cs.foldl (fun acc c => insertChange c acc) []

/-- Every reverse-log timestamp is at most every forward-log timestamp. -/
def crossOrdered (m : TimeMachine S F R T) : Prop :=
  ∀ a ∈ m.reverse, ∀ b ∈ m.forward, a.time ≤ b.time

/-- Well-formedness of the two logs: the forward log ascends away from the
current position, the reverse log descends from its back, and the logs are
cross-ordered. -/
def WF (m : TimeMachine S F R T) : Prop :=
  List.Pairwise (fun a b => a.time ≤ b.time) m.forward ∧
  List.Pairwise (fun a b => b.time ≤ a.time) m.reverse ∧
  crossOrdered m

/-- One public operation of the machine. -/
inductive Op (F T : Type) where
  | change (delta : F) (t : T)
  | value_at (t : T)
  | forget (t : T)
deriving DecidableEq

/-- Run one public operation, keeping the machine it leaves behind. -/
def runOp (cap : Cap S F R) (m : TimeMachine S F R T) :
    Op F T → TimeMachine S F R T
  | .change d t => (change cap m d t).2
  | .value_at t => (value_at cap m t).2
  | .forget t => forget_ancient_history cap m t

/-- Run a sequence of public operations. -/
def runOps (cap : Cap S F R) (m : TimeMachine S F R T)
    (ops : List (Op F T)) : TimeMachine S F R T :=
  ops.foldl (runOp cap) m

/-- Build a machine from a fresh one by a sequence of change insertions,
each given as a timestamp paired with a forward delta. -/
def buildChanges (cap : Cap S F R) (s0 : S) (cs : List (T × F)) :
    TimeMachine S F R T :=
  cs.foldl (fun m c => (change cap m c.2 c.1).2) (TimeMachine.new s0)

/-- A simple caller-supplied capability used to instantiate theorems: the
state is an integer and a forward delta shifts it. -/
def shiftCap : Cap Int Int Int :=
  { applyForward := fun s d => (s + d, d)
    applyReverse := fun s d => s - d }

/-! ## Basic equations -/

theorem applyList_nil (cap : Cap S F R) (s : S) : applyList cap s [] = s := rfl

theorem applyList_cons (cap : Cap S F R) (s : S) (d : F) (ds : List F) :
    applyList cap s (d :: ds) = applyList cap (cap.applyForward s d).1 ds := rfl

theorem applyList_append (cap : Cap S F R) (s : S) (l1 l2 : List F) :
    applyList cap s (l1 ++ l2) = applyList cap (applyList cap s l1) l2 := by
  simp [applyList, List.foldl_append]

/-! ## The forward phase of the seek -/

theorem moveForwardAux_forward (cap : Cap S F R) (t : T)
    (fwd : List (Timestamped T F)) (s : S)
    (rev : List (Timestamped T (F × R))) :
    (moveForwardAux cap t fwd s rev).2.2
      = fwd.dropWhile (fun e => e.time ≤ t) := by
  induction fwd generalizing s rev with
  | nil => rfl
  | cons e rest ih =>
    simp only [moveForwardAux, List.dropWhile_cons]
    by_cases h : t < e.time
    · simp [h, not_le.2 h]
    · simp [h, not_lt.1 h, ih]

theorem moveForwardAux_current (cap : Cap S F R) (t : T)
    (fwd : List (Timestamped T F)) (s : S)
    (rev : List (Timestamped T (F × R))) :
    (moveForwardAux cap t fwd s rev).1
      = applyList cap s
          ((fwd.takeWhile (fun e => e.time ≤ t)).map (fun e => e.data)) := by
  induction fwd generalizing s rev with
  | nil => rfl
  | cons e rest ih =>
    simp only [moveForwardAux, List.takeWhile_cons]
    by_cases h : t < e.time
    · simp [h, not_le.2 h, applyList_nil]
    · simp [h, not_lt.1 h, ih, applyList_cons]

theorem moveForwardAux_reverse_strip (cap : Cap S F R) (t : T)
    (fwd : List (Timestamped T F)) (s : S)
    (rev : List (Timestamped T (F × R))) :
    (moveForwardAux cap t fwd s rev).2.1.map stripR
      = ((fwd.takeWhile (fun e => e.time ≤ t)).map stripF).reverse
          ++ rev.map stripR := by
  induction fwd generalizing s rev with
  | nil => rfl
  | cons e rest ih =>
    simp only [moveForwardAux, List.takeWhile_cons]
    by_cases h : t < e.time
    · simp [h, not_le.2 h]
    · simp [h, not_lt.1 h, ih, stripR, stripF]

theorem moveForwardAux_coherent (cap : Cap S F R) (t : T) (s0 : S)
    (fwd : List (Timestamped T F)) (s : S)
    (rev : List (Timestamped T (F × R)))
    (hco : Coherent cap s0 rev s) :
    Coherent cap s0 (moveForwardAux cap t fwd s rev).2.1
      (moveForwardAux cap t fwd s rev).1 := by
  induction fwd generalizing s rev with
  | nil => exact hco
  | cons e rest ih =>
    simp only [moveForwardAux]
    by_cases h : t < e.time
    · simp only [if_pos h]
      exact hco
    · simp only [if_neg h]
      exact ih _ _ ⟨s, hco, Prod.mk.eta⟩

theorem moveForwardAux_wf (cap : Cap S F R) (t : T)
    (fwd : List (Timestamped T F)) (s : S)
    (rev : List (Timestamped T (F × R)))
    (hf : List.Pairwise (fun a b => a.time ≤ b.time) fwd)
    (hr : List.Pairwise (fun a b => b.time ≤ a.time) rev)
    (hc : ∀ a ∈ rev, ∀ b ∈ fwd, a.time ≤ b.time) :
    List.Pairwise (fun a b => a.time ≤ b.time)
        (moveForwardAux cap t fwd s rev).2.2 ∧
    List.Pairwise (fun a b => b.time ≤ a.time)
        (moveForwardAux cap t fwd s rev).2.1 ∧
    (∀ a ∈ (moveForwardAux cap t fwd s rev).2.1,
       ∀ b ∈ (moveForwardAux cap t fwd s rev).2.2, a.time ≤ b.time) ∧
    (∀ b ∈ (moveForwardAux cap t fwd s rev).2.2, t < b.time) ∧
    (∀ a ∈ (moveForwardAux cap t fwd s rev).2.1, a.time ≤ t ∨ a ∈ rev) := by
  induction fwd generalizing s rev with
  | nil =>
    exact ⟨List.Pairwise.nil, hr, by simp [moveForwardAux],
      by simp [moveForwardAux], fun a ha => Or.inr ha⟩
  | cons e rest ih =>
    rcases List.pairwise_cons.1 hf with ⟨he, hrest⟩
    simp only [moveForwardAux]
    by_cases h : t < e.time
    · simp only [if_pos h]
      refine ⟨hf, hr, hc, ?_, fun a ha => Or.inr ha⟩
      intro b hb
      rcases List.mem_cons.1 hb with rfl | hb
      · exact h
      · exact lt_of_lt_of_le h (he b hb)
    · simp only [if_neg h]
      have het : e.time ≤ t := not_lt.1 h
      have hr' : List.Pairwise (fun a b => b.time ≤ a.time)
          (⟨e.time, (e.data, (cap.applyForward s e.data).2)⟩ :: rev) :=
        List.pairwise_cons.2
          ⟨fun a ha => hc a ha e (List.mem_cons_self _ _), hr⟩
      have hc' : ∀ a ∈ (⟨e.time, (e.data, (cap.applyForward s e.data).2)⟩
            :: rev), ∀ b ∈ rest, a.time ≤ b.time := by
        intro a ha b hb
        rcases List.mem_cons.1 ha with rfl | ha
        · exact he b hb
        · exact hc a ha b (List.mem_cons_of_mem e hb)
      obtain ⟨h1, h2, h3, h4, h5⟩ := ih _ _ hrest hr' hc'
      refine ⟨h1, h2, h3, h4, ?_⟩
      intro a ha
      rcases h5 a ha with hle | hmem
      · exact Or.inl hle
      · rcases List.mem_cons.1 hmem with rfl | hmem
        · exact Or.inl het
        · exact Or.inr hmem

theorem moveForwardAux_head (cap : Cap S F R) (t : T)
    (fwd : List (Timestamped T F)) (s : S)
    (rev : List (Timestamped T (F × R))) :
    (moveForwardAux cap t fwd s rev).2.2 = [] ∨
    ∃ e rest2, (moveForwardAux cap t fwd s rev).2.2 = e :: rest2
      ∧ t < e.time := by
  induction fwd generalizing s rev with
  | nil => exact Or.inl rfl
  | cons e rest ih =>
    simp only [moveForwardAux]
    by_cases h : t < e.time
    · exact Or.inr ⟨e, rest, by simp [if_pos h], h⟩
    · simp only [if_neg h]
      exact ih _ _

/-! ## The backward phase of the seek -/

theorem moveBackwardAux_reverse (cap : Cap S F R) (t : T)
    (rev : List (Timestamped T (F × R))) (s : S)
    (fwd : List (Timestamped T F)) :
    (moveBackwardAux cap t rev s fwd).2.1
      = rev.dropWhile (fun e => t < e.time) := by
  induction rev generalizing s fwd with
  | nil => rfl
  | cons e rest ih =>
    simp only [moveBackwardAux, List.dropWhile_cons]
    by_cases h : e.time ≤ t
    · simp [h, not_lt.2 h]
    · simp [h, not_le.1 h, ih]

theorem moveBackwardAux_strip (cap : Cap S F R) (t : T)
    (rev : List (Timestamped T (F × R))) (s : S)
    (fwd : List (Timestamped T F)) :
    ((moveBackwardAux cap t rev s fwd).2.1.map stripR).reverse
        ++ (moveBackwardAux cap t rev s fwd).2.2.map stripF
      = (rev.map stripR).reverse ++ fwd.map stripF := by
  induction rev generalizing s fwd with
  | nil => rfl
  | cons e rest ih =>
    simp only [moveBackwardAux]
    by_cases h : e.time ≤ t
    · simp [h]
    · simp only [if_neg h]
      rw [ih]
      simp [stripR, stripF]

theorem moveBackwardAux_coherent (cap : Cap S F R) (hrt : RoundTrip cap)
    (t : T) (s0 : S)
    (rev : List (Timestamped T (F × R))) (s : S)
    (fwd : List (Timestamped T F))
    (hco : Coherent cap s0 rev s) :
    Coherent cap s0 (moveBackwardAux cap t rev s fwd).2.1
      (moveBackwardAux cap t rev s fwd).1 := by
  induction rev generalizing s fwd with
  | nil => exact hco
  | cons e rest ih =>
    simp only [moveBackwardAux]
    by_cases h : e.time ≤ t
    · simp only [if_pos h]
      exact hco
    · simp only [if_neg h]
      obtain ⟨p, hp, heq⟩ := hco
      have hs : s = (cap.applyForward p e.data.1).1 := by rw [heq]
      have hrd : e.data.2 = (cap.applyForward p e.data.1).2 := by rw [heq]
      have : cap.applyReverse s e.data.2 = p := by
        rw [hs, hrd]
        exact hrt p e.data.1
      rw [this] at *
      exact ih _ _ hp

theorem moveBackwardAux_wf (cap : Cap S F R) (t : T)
    (rev : List (Timestamped T (F × R))) (s : S)
    (fwd : List (Timestamped T F))
    (hf : List.Pairwise (fun a b => a.time ≤ b.time) fwd)
    (hr : List.Pairwise (fun a b => b.time ≤ a.time) rev)
    (hc : ∀ a ∈ rev, ∀ b ∈ fwd, a.time ≤ b.time) :
    List.Pairwise (fun a b => a.time ≤ b.time)
        (moveBackwardAux cap t rev s fwd).2.2 ∧
    List.Pairwise (fun a b => b.time ≤ a.time)
        (moveBackwardAux cap t rev s fwd).2.1 ∧
    (∀ a ∈ (moveBackwardAux cap t rev s fwd).2.1,
       ∀ b ∈ (moveBackwardAux cap t rev s fwd).2.2, a.time ≤ b.time) ∧
    (∀ a ∈ (moveBackwardAux cap t rev s fwd).2.1, a.time ≤ t) ∧
    (∀ b ∈ (moveBackwardAux cap t rev s fwd).2.2,
       t < b.time ∨ b ∈ fwd) := by
  induction rev generalizing s fwd with
  | nil =>
    exact ⟨hf, List.Pairwise.nil, by simp [moveBackwardAux],
      by simp [moveBackwardAux], fun b hb => Or.inr hb⟩
  | cons e rest ih =>
    rcases List.pairwise_cons.1 hr with ⟨he, hrest⟩
    simp only [moveBackwardAux]
    by_cases h : e.time ≤ t
    · simp only [if_pos h]
      refine ⟨hf, hr, hc, ?_, fun b hb => Or.inr hb⟩
      intro a ha
      rcases List.mem_cons.1 ha with rfl | ha
      · exact h
      · exact le_trans (he a ha) h
    · simp only [if_neg h]
      have het : t < e.time := not_le.1 h
      have hf' : List.Pairwise (fun a b => a.time ≤ b.time)
          (⟨e.time, e.data.1⟩ :: fwd) :=
        List.pairwise_cons.2
          ⟨fun b hb => hc e (List.mem_cons_self _ _) b hb, hf⟩
      have hc' : ∀ a ∈ rest, ∀ b ∈ (⟨e.time, e.data.1⟩ :: fwd),
          a.time ≤ b.time := by
        intro a ha b hb
        rcases List.mem_cons.1 hb with rfl | hb
        · exact he a ha
        · exact hc a (List.mem_cons_of_mem e ha) b hb
      obtain ⟨h1, h2, h3, h4, h5⟩ := ih _ _ hf' hrest hc'
      refine ⟨h1, h2, h3, h4, ?_⟩
      intro b hb
      rcases h5 b hb with hlt | hmem
      · exact Or.inl hlt
      · rcases List.mem_cons.1 hmem with rfl | hmem
        · exact Or.inl het
        · exact Or.inr hmem

theorem moveBackwardAux_fwd_head (cap : Cap S F R) (t : T)
    (rev : List (Timestamped T (F × R))) (s : S)
    (fwd : List (Timestamped T F))
    (hfwd : fwd = [] ∨ ∃ e rest2, fwd = e :: rest2 ∧ t < e.time) :
    (moveBackwardAux cap t rev s fwd).2.2 = [] ∨
    ∃ e rest2, (moveBackwardAux cap t rev s fwd).2.2 = e :: rest2
      ∧ t < e.time := by
  induction rev generalizing s fwd with
  | nil => exact hfwd
  | cons e rest ih =>
    simp only [moveBackwardAux]
    by_cases h : e.time ≤ t
    · simp only [if_pos h]
      exact hfwd
    · simp only [if_neg h]
      exact ih _ _ (Or.inr ⟨_, fwd, rfl, not_le.1 h⟩)

theorem moveBackwardAux_rev_head (cap : Cap S F R) (t : T)
    (rev : List (Timestamped T (F × R))) (s : S)
    (fwd : List (Timestamped T F)) :
    (moveBackwardAux cap t rev s fwd).2.1 = [] ∨
    ∃ e rest2, (moveBackwardAux cap t rev s fwd).2.1 = e :: rest2
      ∧ e.time ≤ t := by
  induction rev generalizing s fwd with
  | nil => exact Or.inl rfl
  | cons e rest ih =>
    simp only [moveBackwardAux]
    by_cases h : e.time ≤ t
    · exact Or.inr ⟨e, rest, by simp [if_pos h], h⟩
    · simp only [if_neg h]
      exact ih _ _

/-! ## Machine-level seek lemmas -/

theorem timeline_moveForwardTo (cap : Cap S F R) (m : TimeMachine S F R T)
    (t : T) : timeline (moveForwardTo cap m t) = timeline m := by
  unfold timeline moveForwardTo
  rw [moveForwardAux_reverse_strip, moveForwardAux_forward,
    List.reverse_append, List.reverse_reverse, List.append_assoc,
    ← List.map_append, List.takeWhile_append_dropWhile]

theorem timeline_moveBackwardTo (cap : Cap S F R) (m : TimeMachine S F R T)
    (t : T) : timeline (moveBackwardTo cap m t) = timeline m :=
  moveBackwardAux_strip cap t m.reverse m.current m.forward

theorem timeline_move_to (cap : Cap S F R) (m : TimeMachine S F R T)
    (t : T) : timeline (move_to cap m t) = timeline m := by
  unfold move_to
  rw [timeline_moveBackwardTo, timeline_moveForwardTo]

theorem move_to_oldest (cap : Cap S F R) (m : TimeMachine S F R T) (t : T) :
    (move_to cap m t).oldest = m.oldest := rfl

theorem moveForwardTo_wf (cap : Cap S F R) (m : TimeMachine S F R T)
    (t : T) (h : WF m) :
    WF (moveForwardTo cap m t) ∧
    (∀ b ∈ (moveForwardTo cap m t).forward, t < b.time) ∧
    (∀ a ∈ (moveForwardTo cap m t).reverse, a.time ≤ t ∨ a ∈ m.reverse) := by
  obtain ⟨hf, hr, hc⟩ := h
  obtain ⟨h1, h2, h3, h4, h5⟩ :=
    moveForwardAux_wf cap t m.forward m.current m.reverse hf hr hc
  exact ⟨⟨h1, h2, h3⟩, h4, h5⟩

theorem moveBackwardTo_wf (cap : Cap S F R) (m : TimeMachine S F R T)
    (t : T) (h : WF m) :
    WF (moveBackwardTo cap m t) ∧
    (∀ a ∈ (moveBackwardTo cap m t).reverse, a.time ≤ t) ∧
    (∀ b ∈ (moveBackwardTo cap m t).forward,
       t < b.time ∨ b ∈ m.forward) := by
  obtain ⟨hf, hr, hc⟩ := h
  obtain ⟨h1, h2, h3, h4, h5⟩ :=
    moveBackwardAux_wf cap t m.reverse m.current m.forward hf hr hc
  exact ⟨⟨h1, h2, h3⟩, h4, h5⟩

theorem move_to_post (cap : Cap S F R) (m : TimeMachine S F R T) (t : T)
    (h : WF m) :
    WF (move_to cap m t) ∧
    (∀ a ∈ (move_to cap m t).reverse, a.time ≤ t) ∧
    (∀ b ∈ (move_to cap m t).forward, t < b.time) := by
  obtain ⟨hwf1, hfwd1, _⟩ := moveForwardTo_wf cap m t h
  obtain ⟨hwf2, hrev2, hfwd2⟩ :=
    moveBackwardTo_wf cap (moveForwardTo cap m t) t hwf1
  refine ⟨hwf2, hrev2, ?_⟩
  intro b hb
  rcases hfwd2 b hb with hlt | hmem
  · exact hlt
  · exact hfwd1 b hmem

theorem move_to_coherent (cap : Cap S F R) (hrt : RoundTrip cap) (s0 : S)
    (m : TimeMachine S F R T) (t : T)
    (hco : Coherent cap s0 m.reverse m.current) :
    Coherent cap s0 (move_to cap m t).reverse (move_to cap m t).current :=
  moveBackwardAux_coherent cap hrt t s0 _ _ _
    (moveForwardAux_coherent cap t s0 m.forward m.current m.reverse hco)

theorem move_to_heads (cap : Cap S F R) (m : TimeMachine S F R T) (t : T) :
    ((move_to cap m t).forward = [] ∨
      ∃ e rest2, (move_to cap m t).forward = e :: rest2 ∧ t < e.time) ∧
    ((move_to cap m t).reverse = [] ∨
      ∃ e rest2, (move_to cap m t).reverse = e :: rest2 ∧ e.time ≤ t) :=
  ⟨moveBackwardAux_fwd_head cap t _ _ _
      (moveForwardAux_head cap t m.forward m.current m.reverse),
    moveBackwardAux_rev_head cap t _ _ _⟩

theorem moveForwardTo_id (cap : Cap S F R) (m : TimeMachine S F R T)
    (t : T)
    (h : m.forward = [] ∨ ∃ e rest2, m.forward = e :: rest2 ∧ t < e.time) :
    moveForwardTo cap m t = m := by
  cases m with
  | mk current reverse forward oldest =>
    rcases h with h | ⟨e, rest2, he, hlt⟩ <;>
      simp_all [moveForwardTo, moveForwardAux]

theorem moveBackwardTo_id (cap : Cap S F R) (m : TimeMachine S F R T)
    (t : T)
    (h : m.reverse = [] ∨ ∃ e rest2, m.reverse = e :: rest2 ∧ e.time ≤ t) :
    moveBackwardTo cap m t = m := by
  cases m with
  | mk current reverse forward oldest =>
    rcases h with h | ⟨e, rest2, he, hle⟩ <;>
      simp_all [moveBackwardTo, moveBackwardAux]

theorem move_to_idem (cap : Cap S F R) (m : TimeMachine S F R T) (t : T) :
    move_to cap (move_to cap m t) t = move_to cap m t := by
  have h := move_to_heads cap m t
  have h1 : moveForwardTo cap (move_to cap m t) t = move_to cap m t :=
    moveForwardTo_id cap _ t h.1
  show moveBackwardTo cap (moveForwardTo cap (move_to cap m t) t) t
    = move_to cap m t
  rw [h1]
  exact moveBackwardTo_id cap _ t h.2

/-! ## Coherence and ordered insertion -/

theorem coherent_applyList (cap : Cap S F R) (s0 : S)
    (rev : List (Timestamped T (F × R))) (s : S)
    (hco : Coherent cap s0 rev s) :
    s = applyList cap s0 ((rev.map (fun e => e.data.1)).reverse) := by
  induction rev generalizing s with
  | nil => simpa [applyList] using hco
  | cons e rest ih =>
    obtain ⟨p, hp, heq⟩ := hco
    have hs : s = (cap.applyForward p e.data.1).1 := by rw [heq]
    rw [hs, ih p hp]
    simp [applyList_append, applyList_cons, applyList_nil]

theorem filter_partition_left {α : Type} (p : α → Bool) {A B : List α}
    (hA : ∀ x ∈ A, p x = true) (hB : ∀ x ∈ B, p x = false) :
    (A ++ B).filter p = A := by
  rw [List.filter_append, List.filter_eq_self.2 hA]
  have hb : B.filter p = [] :=
    List.filter_eq_nil_iff.2 (fun a ha => by simp [hB a ha])
  rw [hb, List.append_nil]

theorem mem_insertChange (c x : T × F) (l : List (T × F)) :
    x ∈ insertChange c l ↔ x = c ∨ x ∈ l := by
  induction l with
  | nil => simp [insertChange]
  | cons e rest ih =>
    simp only [insertChange]
    by_cases h : e.1 ≤ c.1
    · rw [if_pos h]
      simp only [List.mem_cons, ih]
      tauto
    · rw [if_neg h]
      simp only [List.mem_cons]

theorem insertChange_sorted (c : T × F) (l : List (T × F))
    (hl : List.Pairwise (fun a b => a.1 ≤ b.1) l) :
    List.Pairwise (fun a b => a.1 ≤ b.1) (insertChange c l) := by
  induction l with
  | nil => simp [insertChange]
  | cons e rest ih =>
    rcases List.pairwise_cons.1 hl with ⟨he, hrest⟩
    simp only [insertChange]
    by_cases h : e.1 ≤ c.1
    · rw [if_pos h]
      refine List.pairwise_cons.2 ⟨?_, ih hrest⟩
      intro x hx
      rcases (mem_insertChange c x rest).1 hx with rfl | hx
      · exact h
      · exact he x hx
    · rw [if_neg h]
      refine List.pairwise_cons.2 ⟨?_, hl⟩
      intro x hx
      rcases List.mem_cons.1 hx with rfl | hx
      · exact le_of_lt (not_le.1 h)
      · exact le_trans (le_of_lt (not_le.1 h)) (he x hx)

theorem insertChange_perm (c : T × F) (l : List (T × F)) :
    List.Perm (insertChange c l) (c :: l) := by
  induction l with
  | nil => exact List.Perm.refl _
  | cons e rest ih =>
    simp only [insertChange]
    by_cases h : e.1 ≤ c.1
    · rw [if_pos h]
      exact (ih.cons e).trans (List.Perm.swap c e rest)
    · rw [if_neg h]

theorem insertChange_of_partition (c : T × F) (A B : List (T × F))
    (hA : ∀ x ∈ A, x.1 ≤ c.1) (hB : ∀ x ∈ B, c.1 < x.1) :
    insertChange c (A ++ B) = A ++ c :: B := by
  induction A with
  | nil =>
    cases B with
    | nil => rfl
    | cons e rest =>
      simp only [List.nil_append, insertChange]
      rw [if_neg (not_le.2 (hB e (List.mem_cons_self _ _)))]
  | cons a A ih =>
    simp only [List.cons_append, insertChange, List.append_eq]
    rw [if_pos (hA a (List.mem_cons_self _ _)),
      ih (fun x hx => hA x (List.mem_cons_of_mem a hx))]

theorem filter_insertChange (t : T) (d : F) (L : List (T × F))
    (hL : List.Pairwise (fun a b => a.1 ≤ b.1) L) :
    (insertChange (t, d) L).filter (fun x => x.1 ≤ t)
      = L.filter (fun x => x.1 ≤ t) ++ [(t, d)] := by
  induction L with
  | nil => simp [insertChange]
  | cons e rest ih =>
    rcases List.pairwise_cons.1 hL with ⟨he, hrest⟩
    simp only [insertChange]
    by_cases h : e.1 ≤ t
    · rw [if_pos h]
      simp [List.filter_cons, h, ih hrest]
    · rw [if_neg h]
      have hrest' : (e :: rest).filter (fun x => decide (x.1 ≤ t)) = [] := by
        refine List.filter_eq_nil_iff.2 ?_
        intro x hx
        rcases List.mem_cons.1 hx with rfl | hx
        · simp [h]
        · simp only [decide_eq_true_eq]
          exact fun hc => h (le_trans (he x hx) hc)
      simp [List.filter_cons, hrest']

theorem chronological_append_singleton (cs : List (T × F)) (c : T × F) :
    chronological (cs ++ [c]) = insertChange c (chronological cs) := by
  simp [chronological, List.foldl_append]

theorem chronological_sorted (cs : List (T × F)) :
    List.Pairwise (fun a b => a.1 ≤ b.1) (chronological cs) := by
  induction cs using List.reverseRecOn with
  | nil => simp [chronological]
  | append_singleton l a ih =>
    rw [chronological_append_singleton]
    exact insertChange_sorted a _ ih

theorem chronological_perm (cs : List (T × F)) :
    List.Perm (chronological cs) cs := by
  induction cs using List.reverseRecOn with
  | nil => simp [chronological]
  | append_singleton l a ih =>
    rw [chronological_append_singleton]
    exact (insertChange_perm a _).trans
      ((ih.cons a).trans (List.perm_append_singleton a l).symm)

/-! ## Public-operation step lemmas -/

theorem check_oldest_none (m : TimeMachine S F R T) (t : T)
    (h : m.oldest = none) : check_oldest m t = .ok () := by
  simp [check_oldest, h]

theorem change_of_none (cap : Cap S F R) (m : TimeMachine S F R T) (d : F)
    (t : T) (h : m.oldest = none) :
    change cap m d t =
      (.ok (), { move_to cap m t with
        forward := ⟨t, d⟩ :: (move_to cap m t).forward }) := by
  simp [change, check_oldest_none m t h]

theorem value_at_of_none (cap : Cap S F R) (m : TimeMachine S F R T)
    (t : T) (h : m.oldest = none) :
    value_at cap m t = (.ok (move_to cap m t).current, move_to cap m t) := by
  simp [value_at, check_oldest_none m t h]

/-- The combined invariant of a machine built only from changes: ordered
logs, a coherent reverse log, and no retention boundary. -/
def InvTM (cap : Cap S F R) (s0 : S) (m : TimeMachine S F R T) : Prop :=
  WF m ∧ Coherent cap s0 m.reverse m.current ∧ m.oldest = none

theorem new_inv (cap : Cap S F R) (s0 : S) :
    InvTM cap s0 (TimeMachine.new s0 : TimeMachine S F R T) ∧
    timeline (TimeMachine.new s0 : TimeMachine S F R T) = [] :=
  ⟨⟨⟨List.Pairwise.nil, List.Pairwise.nil, by simp [crossOrdered, TimeMachine.new]⟩,
    rfl, rfl⟩, rfl⟩

theorem move_to_inv (cap : Cap S F R) (hrt : RoundTrip cap) (s0 : S)
    (m : TimeMachine S F R T) (t : T) (h : InvTM cap s0 m) :
    InvTM cap s0 (move_to cap m t) := by
  obtain ⟨hwf, hco, hold⟩ := h
  exact ⟨(move_to_post cap m t hwf).1, move_to_coherent cap hrt s0 m t hco,
    (move_to_oldest cap m t).trans hold⟩

theorem change_step (cap : Cap S F R) (hrt : RoundTrip cap) (s0 : S)
    (m : TimeMachine S F R T) (d : F) (t : T)
    (h : InvTM cap s0 m) :
    (change cap m d t).1 = .ok () ∧
    InvTM cap s0 (change cap m d t).2 ∧
    timeline (change cap m d t).2 = insertChange (t, d) (timeline m) := by
  obtain ⟨hwf, hco, hold⟩ := h
  obtain ⟨hwf', hrev, hfwd⟩ := move_to_post cap m t hwf
  rw [change_of_none cap m d t hold]
  refine ⟨rfl, ⟨?_, ?_, ?_⟩, ?_⟩
  · obtain ⟨hf, hr, hc⟩ := hwf'
    refine ⟨List.pairwise_cons.2 ⟨fun b hb => le_of_lt (hfwd b hb), hf⟩,
      hr, ?_⟩
    intro a ha b hb
    rcases List.mem_cons.1 hb with rfl | hb
    · exact hrev a ha
    · exact hc a ha b hb
  · exact move_to_coherent cap hrt s0 m t hco
  · exact (move_to_oldest cap m t).trans hold
  · have hA : ∀ x ∈ ((move_to cap m t).reverse.map stripR).reverse,
        x.1 ≤ t := by
      intro x hx
      rw [List.mem_reverse, List.mem_map] at hx
      obtain ⟨e, he, rfl⟩ := hx
      exact hrev e he
    have hB : ∀ x ∈ (move_to cap m t).forward.map stripF, t < x.1 := by
      intro x hx
      rw [List.mem_map] at hx
      obtain ⟨e, he, rfl⟩ := hx
      exact hfwd e he
    rw [← timeline_move_to cap m t]
    show ((move_to cap m t).reverse.map stripR).reverse
        ++ stripF ⟨t, d⟩ :: (move_to cap m t).forward.map stripF
      = insertChange (t, d) (timeline (move_to cap m t))
    rw [timeline, insertChange_of_partition (t, d) _ _ hA hB]
    rfl

theorem move_to_value (cap : Cap S F R) (hrt : RoundTrip cap) (s0 : S)
    (m : TimeMachine S F R T) (t : T) (hwf : WF m)
    (hco : Coherent cap s0 m.reverse m.current) :
    (move_to cap m t).current
      = applyList cap s0
          (((timeline m).filter (fun c => c.1 ≤ t)).map (fun c => c.2)) := by
  obtain ⟨_, hrev, hfwd⟩ := move_to_post cap m t hwf
  have hval := coherent_applyList cap s0 _ _
    (move_to_coherent cap hrt s0 m t hco)
  rw [hval, ← timeline_move_to cap m t]
  have hA : ∀ x ∈ ((move_to cap m t).reverse.map stripR).reverse,
      (fun c : T × F => decide (c.1 ≤ t)) x = true := by
    intro x hx
    rw [List.mem_reverse, List.mem_map] at hx
    obtain ⟨e, he, rfl⟩ := hx
    simpa using hrev e he
  have hB : ∀ x ∈ (move_to cap m t).forward.map stripF,
      (fun c : T × F => decide (c.1 ≤ t)) x = false := by
    intro x hx
    rw [List.mem_map] at hx
    obtain ⟨e, he, rfl⟩ := hx
    simpa using not_le.2 (hfwd e he)
  rw [timeline, filter_partition_left _ hA hB]
  simp only [List.map_reverse, List.map_map]
  rfl

theorem value_at_step (cap : Cap S F R) (hrt : RoundTrip cap) (s0 : S)
    (m : TimeMachine S F R T) (t : T) (h : InvTM cap s0 m) :
    (value_at cap m t).1
      = .ok (applyList cap s0
          (((timeline m).filter (fun c => c.1 ≤ t)).map (fun c => c.2))) ∧
    InvTM cap s0 (value_at cap m t).2 ∧
    timeline (value_at cap m t).2 = timeline m := by
  obtain ⟨hwf, hco, hold⟩ := h
  rw [value_at_of_none cap m t hold]
  exact ⟨congrArg Except.ok (move_to_value cap hrt s0 m t hwf hco),
    move_to_inv cap hrt s0 m t ⟨hwf, hco, hold⟩, timeline_move_to cap m t⟩

theorem buildChanges_append_singleton (cap : Cap S F R) (s0 : S)
    (cs : List (T × F)) (c : T × F) :
    buildChanges cap s0 (cs ++ [c])
      = (change cap (buildChanges cap s0 cs) c.2 c.1).2 := by
  simp [buildChanges, List.foldl_append]

theorem buildChanges_inv (cap : Cap S F R) (hrt : RoundTrip cap) (s0 : S)
    (cs : List (T × F)) :
    InvTM cap s0 (buildChanges cap s0 cs) ∧
    timeline (buildChanges cap s0 cs) = chronological cs := by
  induction cs using List.reverseRecOn with
  | nil => exact ⟨(new_inv cap s0).1, (new_inv cap s0).2⟩
  | append_singleton l c ih =>
    obtain ⟨hinv, htl⟩ := ih
    obtain ⟨_, hinv', htl'⟩ := change_step cap hrt s0 _ c.2 c.1 hinv
    rw [buildChanges_append_singleton, chronological_append_singleton]
    exact ⟨hinv', by rw [htl', htl]⟩

/-! ## Well-formedness is preserved by every public operation -/

theorem change_push_wf (cap : Cap S F R) (m : TimeMachine S F R T) (d : F)
    (t : T) (hwf : WF m) :
    WF { move_to cap m t with
      forward := ⟨t, d⟩ :: (move_to cap m t).forward } := by
  obtain ⟨⟨hf, hr, hc⟩, hrev, hfwd⟩ := move_to_post cap m t hwf
  refine ⟨List.pairwise_cons.2 ⟨fun b hb => le_of_lt (hfwd b hb), hf⟩,
    hr, ?_⟩
  intro a ha b hb
  rcases List.mem_cons.1 hb with rfl | hb
  · exact hrev a ha
  · exact hc a ha b hb

theorem change_wf (cap : Cap S F R) (m : TimeMachine S F R T) (d : F)
    (t : T) (hwf : WF m) : WF (change cap m d t).2 := by
  unfold change
  cases hc : check_oldest m t with
  | error e => exact hwf
  | ok u => exact change_push_wf cap m d t hwf

theorem value_at_wf (cap : Cap S F R) (m : TimeMachine S F R T) (t : T)
    (hwf : WF m) : WF (value_at cap m t).2 := by
  unfold value_at
  cases hc : check_oldest m t with
  | error e => exact hwf
  | ok u => exact (move_to_post cap m t hwf).1

theorem dropOld_suffix (t : T) (l : List (Timestamped T (F × R))) :
    (dropOld t l).IsSuffix l := by
  induction l with
  | nil => exact List.suffix_refl _
  | cons e rest ih =>
    simp only [dropOld]
    by_cases h : t ≤ e.time
    · rw [if_pos h]
    · rw [if_neg h]
      exact ih.trans (List.suffix_cons e rest)

theorem forget_wf (cap : Cap S F R) (m : TimeMachine S F R T) (t : T)
    (hwf : WF m) : WF (forget_ancient_history cap m t) := by
  obtain ⟨⟨hf, hr, hc⟩, _, _⟩ := moveForwardTo_wf cap m t hwf
  have hsub : ((dropOld t (moveForwardTo cap m t).reverse.reverse).reverse).Sublist
      (moveForwardTo cap m t).reverse := by
    have h1 :=
      (dropOld_suffix t (moveForwardTo cap m t).reverse.reverse).sublist.reverse
    simpa using h1
  refine ⟨hf, hr.sublist hsub, ?_⟩
  intro a ha b hb
  exact hc a (hsub.mem ha) b hb

theorem runOp_wf (cap : Cap S F R) (m : TimeMachine S F R T)
    (op : Op F T) (hwf : WF m) : WF (runOp cap m op) := by
  cases op with
  | change d t => exact change_wf cap m d t hwf
  | value_at t => exact value_at_wf cap m t hwf
  | forget t => exact forget_wf cap m t hwf

theorem runOps_wf (cap : Cap S F R) (m : TimeMachine S F R T)
    (ops : List (Op F T)) (hwf : WF m) : WF (runOps cap m ops) := by
  induction ops generalizing m with
  | nil => exact hwf
  | cons op ops ih => exact ih _ (runOp_wf cap m op hwf)

theorem new_wf (s0 : S) : WF (TimeMachine.new s0 : TimeMachine S F R T) :=
  ⟨List.Pairwise.nil, List.Pairwise.nil, by simp [crossOrdered, TimeMachine.new]⟩

/-! ## The content of the logs after eviction -/

theorem dropOld_eq_filter (t : T) (l : List (Timestamped T (F × R)))
    (hl : List.Pairwise (fun a b => a.time ≤ b.time) l) :
    dropOld t l = l.filter (fun e => t ≤ e.time) := by
  induction l with
  | nil => rfl
  | cons e rest ih =>
    rcases List.pairwise_cons.1 hl with ⟨he, hrest⟩
    simp only [dropOld, List.filter_cons]
    by_cases h : t ≤ e.time
    · rw [if_pos h]
      have hall : rest.filter (fun e => decide (t ≤ e.time)) = rest :=
        List.filter_eq_self.2
          (fun x hx => by simpa using le_trans h (he x hx))
      simp [h, hall]
    · rw [if_neg h]
      simp [h, ih hrest]

theorem sorted_dropWhile_filter (t : T) (l : List (Timestamped T F))
    (hl : List.Pairwise (fun a b => a.time ≤ b.time) l) :
    l.dropWhile (fun e => e.time ≤ t) = l.filter (fun e => t < e.time) := by
  induction l with
  | nil => rfl
  | cons e rest ih =>
    rcases List.pairwise_cons.1 hl with ⟨he, hrest⟩
    simp only [List.dropWhile_cons, List.filter_cons]
    by_cases h : e.time ≤ t
    · simp [h, not_lt.2 h, ih hrest]
    · have hall : rest.filter (fun e => decide (t < e.time)) = rest :=
        List.filter_eq_self.2 (fun x hx => by
          simpa using lt_of_lt_of_le (not_le.1 h) (he x hx))
      simp [h, not_le.1 h, hall]

theorem sorted_takeWhile_filter (t : T) (l : List (Timestamped T F))
    (hl : List.Pairwise (fun a b => a.time ≤ b.time) l) :
    l.takeWhile (fun e => e.time ≤ t) = l.filter (fun e => e.time ≤ t) := by
  induction l with
  | nil => rfl
  | cons e rest ih =>
    rcases List.pairwise_cons.1 hl with ⟨he, hrest⟩
    simp only [List.takeWhile_cons, List.filter_cons]
    by_cases h : e.time ≤ t
    · simp [h, ih hrest]
    · have hall : rest.filter (fun e => decide (e.time ≤ t)) = [] :=
        List.filter_eq_nil_iff.2 (fun x hx => by
          simpa using fun hc => h (le_trans (he x hx) hc))
      simp [h, hall]

theorem filter_map_strip {α β : Type} (f : α → β) (p : β → Bool)
    (q : α → Bool) (h : ∀ x, p (f x) = q x) (l : List α) :
    (l.map f).filter p = (l.filter q).map f := by
  induction l with
  | nil => rfl
  | cons a l ih =>
    simp only [List.map_cons, List.filter_cons, h a]
    cases hq : q a <;> simp [hq, ih]

/-! ## Two insertions at the same timestamp -/

theorem moveForwardAux_cons_eq (cap : Cap S F R) (t : T) (d1 : F)
    (fwd : List (Timestamped T F)) (s : S)
    (rev : List (Timestamped T (F × R)))
    (hfwd : fwd = [] ∨ ∃ e rest2, fwd = e :: rest2 ∧ t < e.time) :
    moveForwardAux cap t (⟨t, d1⟩ :: fwd) s rev
      = ((cap.applyForward s d1).1,
          ⟨t, (d1, (cap.applyForward s d1).2)⟩ :: rev, fwd) := by
  rcases hfwd with rfl | ⟨e, rest2, rfl, hlt⟩
  · simp [moveForwardAux, lt_irrefl]
  · simp [moveForwardAux, lt_irrefl, hlt]

theorem moveBackwardAux_cons_le (cap : Cap S F R) (t : T)
    (e : Timestamped T (F × R)) (rev : List (Timestamped T (F × R)))
    (s : S) (fwd : List (Timestamped T F)) (h : e.time ≤ t) :
    moveBackwardAux cap t (e :: rev) s fwd = (s, e :: rev, fwd) := by
  simp [moveBackwardAux, h]

theorem change_change_same (cap : Cap S F R) (hrt : RoundTrip cap)
    (s0 : S) (m : TimeMachine S F R T) (d1 d2 : F) (t : T)
    (h : InvTM cap s0 m) :
    ((change cap (change cap m d1 t).2 d2 t).2).reverse
      = ⟨t, (d1, (cap.applyForward (move_to cap m t).current d1).2)⟩
          :: (move_to cap m t).reverse := by
  obtain ⟨hwf, hco, hold⟩ := h
  rw [change_of_none cap m d1 t hold]
  have hold1 : ({ move_to cap m t with
      forward := ⟨t, d1⟩ :: (move_to cap m t).forward }).oldest = none :=
    (move_to_oldest cap m t).trans hold
  rw [change_of_none cap _ d2 t hold1]
  show (moveBackwardTo cap (moveForwardTo cap
      { move_to cap m t with
        forward := ⟨t, d1⟩ :: (move_to cap m t).forward } t) t).reverse = _
  have hfa := moveForwardAux_cons_eq cap t d1 (move_to cap m t).forward
    (move_to cap m t).current (move_to cap m t).reverse
    (move_to_heads cap m t).1
  simp only [moveForwardTo, moveBackwardTo]
  rw [hfa]
  rw [moveBackwardAux_cons_le cap t _ _ _ _ (le_refl t)]

theorem buildChanges_append_two (cap : Cap S F R) (s0 : S)
    (cs : List (T × F)) (c1 c2 : T × F) :
    buildChanges cap s0 (cs ++ [c1, c2])
      = (change cap
          (change cap (buildChanges cap s0 cs) c1.2 c1.1).2 c2.2 c2.1).2 := by
  simp [buildChanges, List.foldl_append]

theorem chronological_append_two (cs : List (T × F)) (c1 c2 : T × F) :
    chronological (cs ++ [c1, c2])
      = insertChange c2 (insertChange c1 (chronological cs)) := by
  simp [chronological, List.foldl_append]

/-! ## Concrete instances for instantiating the theorems -/

deriving instance DecidableEq for Except

theorem shiftCap_roundtrip : RoundTrip shiftCap := by
  intro s d
  simp [RoundTrip, shiftCap]

/-- The round-trip property of the test capability at one delta and one
state. -/
def restores (d : TestTimeMachineDelta) (s : TestTimeMachineState) : Prop :=
  testCap.applyReverse (testCap.applyForward s d).1
    (testCap.applyForward s d).2 = s

theorem wrap32_eq_self {x : Int} (h : In32 x) : wrap32 x = x := by
  obtain ⟨h1, h2⟩ := h
  unfold wrap32
  omega

/-! ## The claims -/

/-- C1: for a machine built by a sequence of successful change insertions
(no boundary is ever set, so every timestamp passes the retention check),
under the round-trip contract law, value_at returns the state obtained
from the initial state by applying exactly the inserted deltas with
timestamp at most the requested one, in ascending timestamp order; no
later delta is reflected.  The chronological list is sorted and is a
permutation of the insertions. -/
theorem c1_value_at_replays_history (cap : Cap S F R) (hrt : RoundTrip cap)
    (s0 : S) (cs : List (T × F)) (t : T) :
    (value_at cap (buildChanges cap s0 cs) t).1
      = .ok (applyList cap s0
          (((chronological cs).filter (fun c => c.1 ≤ t)).map
            (fun c => c.2))) ∧
    List.Pairwise (fun a b => a.1 ≤ b.1) (chronological cs) ∧
    List.Perm (chronological cs) cs := by
  obtain ⟨hinv, htl⟩ := buildChanges_inv cap hrt s0 cs
  obtain ⟨hok, _, _⟩ := value_at_step cap hrt s0 _ t hinv
  exact ⟨by rw [hok, htl], chronological_sorted cs, chronological_perm cs⟩

theorem c1_witness :
    RoundTrip shiftCap ∧
    ((value_at shiftCap (buildChanges shiftCap 0 [((1:Nat), (2:Int)), (10, 5)]) 5).1
        = .ok (applyList shiftCap 0
            (((chronological [((1:Nat), (2:Int)), (10, 5)]).filter
                (fun c => c.1 ≤ 5)).map (fun c => c.2))) ∧
      List.Pairwise (fun a b => a.1 ≤ b.1)
        (chronological [((1:Nat), (2:Int)), (10, 5)]) ∧
      List.Perm (chronological [((1:Nat), (2:Int)), (10, 5)])
        [((1:Nat), (2:Int)), (10, 5)]) :=
  ⟨shiftCap_roundtrip,
    c1_value_at_replays_history shiftCap shiftCap_roundtrip 0
      [((1:Nat), (2:Int)), (10, 5)] 5⟩

/-- C2: change and value_at fail with TimeEvicted exactly when a boundary
is set and the requested timestamp lies strictly below it, TimeEvicted
carries the requested timestamp and the boundary, and it is the only
error; after forget_ancient_history the boundary is the cut, so requests
below it fail with that error and requests at or past it succeed. -/
theorem c2_evicted_characterization (cap : Cap S F R)
    (m : TimeMachine S F R T) (d : F) (t u : T) :
    (∀ b, (change cap m d t).1 = .error (.TimeEvicted t b)
      ↔ (m.oldest = some b ∧ t < b)) ∧
    (∀ b, (value_at cap m t).1 = .error (.TimeEvicted t b)
      ↔ (m.oldest = some b ∧ t < b)) ∧
    (∀ err, (change cap m d t).1 = .error err
      → ∃ b, err = Error.TimeEvicted t b) ∧
    (∀ err, (value_at cap m t).1 = .error err
      → ∃ b, err = Error.TimeEvicted t b) ∧
    (t < u → (change cap (forget_ancient_history cap m u) d t).1
      = .error (.TimeEvicted t u)) ∧
    (t < u → (value_at cap (forget_ancient_history cap m u) t).1
      = .error (.TimeEvicted t u)) ∧
    (u ≤ t → (change cap (forget_ancient_history cap m u) d t).1
      = .ok ()) ∧
    (u ≤ t → (value_at cap (forget_ancient_history cap m u) t).1
      = .ok (move_to cap (forget_ancient_history cap m u) t).current) := by
  have hforget : (forget_ancient_history cap m u).oldest = some u := rfl
  constructor
  · intro b
    cases ho : m.oldest with
    | none => simp [change, check_oldest, ho]
    | some i =>
      by_cases h : t < i
      · simp only [change, check_oldest, ho, if_pos h]
        constructor
        · intro he
          cases he
          exact ⟨rfl, h⟩
        · rintro ⟨hi, _⟩
          cases hi
          rfl
      · simp only [change, check_oldest, ho, if_neg h]
        constructor
        · intro he
          cases he
        · rintro ⟨hi, hlt⟩
          cases hi
          exact absurd hlt h
  constructor
  · intro b
    cases ho : m.oldest with
    | none => simp [value_at, check_oldest, ho]
    | some i =>
      by_cases h : t < i
      · simp only [value_at, check_oldest, ho, if_pos h]
        constructor
        · intro he
          cases he
          exact ⟨rfl, h⟩
        · rintro ⟨hi, _⟩
          cases hi
          rfl
      · simp only [value_at, check_oldest, ho, if_neg h]
        constructor
        · intro he
          cases he
        · rintro ⟨hi, hlt⟩
          cases hi
          exact absurd hlt h
  constructor
  · intro err herr
    cases ho : m.oldest with
    | none => simp [change, check_oldest, ho] at herr
    | some i =>
      by_cases h : t < i
      · simp only [change, check_oldest, ho, if_pos h] at herr
        cases herr
        exact ⟨i, rfl⟩
      · simp [change, check_oldest, ho, if_neg h] at herr
  constructor
  · intro err herr
    cases ho : m.oldest with
    | none => simp [value_at, check_oldest, ho] at herr
    | some i =>
      by_cases h : t < i
      · simp only [value_at, check_oldest, ho, if_pos h] at herr
        cases herr
        exact ⟨i, rfl⟩
      · simp [value_at, check_oldest, ho, if_neg h] at herr
  constructor
  · intro hlt
    simp [change, check_oldest, hforget, hlt]
  constructor
  · intro hlt
    simp [value_at, check_oldest, hforget, hlt]
  constructor
  · intro hle
    simp [change, check_oldest, hforget, not_lt.2 hle]
  · intro hle
    simp [value_at, check_oldest, hforget, not_lt.2 hle]

theorem c2_witness :
    (3:Nat) < 10 ∧
    (change testCap
        (forget_ancient_history testCap (TimeMachine.new ⟨5⟩) 10)
        (.Add 1) 3).1 = .error (.TimeEvicted 3 10) ∧
    (10:Nat) ≤ 12 ∧
    (change testCap
        (forget_ancient_history testCap (TimeMachine.new ⟨5⟩) 10)
        (.Add 1) 12).1 = .ok () :=
  ⟨by decide,
    (c2_evicted_characterization testCap
      (TimeMachine.new ⟨5⟩) (.Add 1) 3 10).2.2.2.2.1 (by decide),
    by decide,
    (c2_evicted_characterization testCap
      (TimeMachine.new ⟨5⟩) (.Add 1) 12 10).2.2.2.2.2.2.1 (by decide)⟩

/-- C4: the claim says the retention boundary never decreases, but
forget_ancient_history overwrites it unconditionally: calling it with 10
and then with 3 on a fresh machine leaves the boundary at 3, strictly
below its earlier value 10. -/
theorem c4_boundary_can_be_lowered :
    (forget_ancient_history testCap
        (TimeMachine.new ⟨5⟩ :
          TimeMachine TestTimeMachineState TestTimeMachineDelta
            TestTimeMachineDelta Nat) 10).oldest = some 10 ∧
    (forget_ancient_history testCap
        (forget_ancient_history testCap (TimeMachine.new ⟨5⟩) 10)
        3).oldest = some 3 ∧
    (3:Nat) < 10 :=
  ⟨rfl, rfl, by decide⟩

/-- C7: when change or value_at fails, the machine is left unchanged:
the boundary check runs before any seek or log mutation. -/
theorem c7_failed_call_is_pure (cap : Cap S F R) (m : TimeMachine S F R T)
    (d : F) (t : T) :
    (∀ err, (change cap m d t).1 = .error err → (change cap m d t).2 = m) ∧
    (∀ err, (value_at cap m t).1 = .error err
      → (value_at cap m t).2 = m) := by
  constructor
  · intro err herr
    cases hc : check_oldest m t with
    | error e => simp [change, hc]
    | ok u =>
      rw [change] at herr
      rw [hc] at herr
      simp at herr
  · intro err herr
    cases hc : check_oldest m t with
    | error e => simp [value_at, hc]
    | ok u =>
      rw [value_at] at herr
      rw [hc] at herr
      simp at herr

theorem c7_witness :
    (change testCap
        (forget_ancient_history testCap (TimeMachine.new ⟨5⟩) 10)
        (.Add 1) 3).1 = .error (.TimeEvicted 3 10) ∧
    (change testCap
        (forget_ancient_history testCap (TimeMachine.new ⟨5⟩) 10)
        (.Add 1) 3).2
      = forget_ancient_history testCap (TimeMachine.new ⟨5⟩) 10 :=
  ⟨by decide,
    (c7_failed_call_is_pure testCap
        (forget_ancient_history testCap (TimeMachine.new ⟨5⟩) 10)
        (.Add 1) 3).1
      (.TimeEvicted 3 10) (by decide)⟩

/-- C9 as stated is false: the test state's division delta does not round
trip, because i32 division discards the remainder.  At state 5 the
forward delta Div 2 yields 2 and its recorded inverse Mul 2 restores 4,
not 5; every value involved is far inside the i32 range, so no wrapping
is involved in the refutation. -/
theorem c9_counterexample :
    ¬ restores (.Div 2) ⟨5⟩ := by
  unfold restores testCap TestTimeMachineState.apply
  decide

/-- C9 amended, over i32 wrap-around (release) semantics: for every
representable state and representable delta operand, the round-trip law
holds for Add and Sub; for Mul i when i is nonzero and the exact product
is still representable; and for Div i when i is nonzero, i divides the
state's value exactly, and the quotient is representable (which only
excludes dividing the minimum value by minus one, a case the source
panics on).  It fails when multiplication overflows or division discards
a remainder. -/
theorem c9_roundtrip_amended (s : TestTimeMachineState) (i : Int)
    (hs : In32 s.val) (hi : In32 i) :
    restores (.Add i) s ∧
    restores (.Sub i) s ∧
    (i ≠ 0 → In32 (s.val * i) → restores (.Mul i) s) ∧
    (i ≠ 0 → i ∣ s.val → In32 (Int.tdiv s.val i) →
      restores (.Div i) s) := by
  refine ⟨?_, ?_, fun hne hprod => ?_, fun hne hdvd hq => ?_⟩
  · simp only [restores, testCap, TestTimeMachineState.apply]
    refine congrArg TestTimeMachineState.mk ?_
    obtain ⟨h1, h2⟩ := hs
    unfold wrap32
    omega
  · simp only [restores, testCap, TestTimeMachineState.apply]
    refine congrArg TestTimeMachineState.mk ?_
    obtain ⟨h1, h2⟩ := hs
    unfold wrap32
    omega
  · simp only [restores, testCap, TestTimeMachineState.apply]
    refine congrArg TestTimeMachineState.mk ?_
    rw [wrap32_eq_self hprod, Int.mul_tdiv_cancel _ hne,
      wrap32_eq_self hs]
  · simp only [restores, testCap, TestTimeMachineState.apply]
    refine congrArg TestTimeMachineState.mk ?_
    rw [wrap32_eq_self hq, Int.tdiv_mul_cancel hdvd, wrap32_eq_self hs]

theorem c9_witness :
    In32 ((⟨6⟩ : TestTimeMachineState).val) ∧ In32 ((3:Int)) ∧
    (3:Int) ≠ 0 ∧ In32 ((⟨6⟩ : TestTimeMachineState).val * 3) ∧
    (3:Int) ∣ (⟨6⟩ : TestTimeMachineState).val ∧
    In32 (Int.tdiv (⟨6⟩ : TestTimeMachineState).val 3) ∧
    restores (.Mul 3) ⟨6⟩ ∧ restores (.Div 3) ⟨6⟩ :=
  ⟨by decide, by decide, by decide, by decide, ⟨2, rfl⟩, by decide,
    (c9_roundtrip_amended ⟨6⟩ 3 (by decide) (by decide)).2.2.1
      (by decide) (by decide),
    (c9_roundtrip_amended ⟨6⟩ 3 (by decide) (by decide)).2.2.2
      (by decide) ⟨2, rfl⟩ (by decide)⟩

/-- C5: with the same inserted changes and a round-tripping capability,
seeking to t1, then t2, then back to t1 returns the same answer as
seeking directly to t1 on the freshly built machine; and repeating a seek
with unchanged logs is a no-op on the whole machine. -/
theorem c5_seek_order_independent (cap : Cap S F R) (hrt : RoundTrip cap)
    (s0 : S) (cs : List (T × F)) (t1 t2 : T) :
    (value_at cap (value_at cap
        (value_at cap (buildChanges cap s0 cs) t1).2 t2).2 t1).1
      = (value_at cap (buildChanges cap s0 cs) t1).1 ∧
    ∀ (m : TimeMachine S F R T) (t : T),
      move_to cap (move_to cap m t) t = move_to cap m t := by
  constructor
  · obtain ⟨hinv0, htl0⟩ := buildChanges_inv cap hrt s0 cs
    obtain ⟨hok0, hinv1, htl1⟩ := value_at_step cap hrt s0 _ t1 hinv0
    obtain ⟨_, hinv2, htl2⟩ := value_at_step cap hrt s0 _ t2 hinv1
    obtain ⟨hok2, _, _⟩ := value_at_step cap hrt s0 _ t1 hinv2
    rw [hok0, hok2, htl2, htl1]
  · exact fun m t => move_to_idem cap m t

theorem c5_witness :
    RoundTrip shiftCap ∧
    (value_at shiftCap (value_at shiftCap
        (value_at shiftCap
          (buildChanges shiftCap 0 [((1:Nat), (2:Int))]) 3).2 4).2 3).1
      = (value_at shiftCap
          (buildChanges shiftCap 0 [((1:Nat), (2:Int))]) 3).1 ∧
    move_to shiftCap
        (move_to shiftCap (buildChanges shiftCap 0 [((1:Nat), (2:Int))]) 3) 3
      = move_to shiftCap (buildChanges shiftCap 0 [((1:Nat), (2:Int))]) 3 :=
  ⟨shiftCap_roundtrip,
    (c5_seek_order_independent shiftCap shiftCap_roundtrip 0
      [((1:Nat), (2:Int))] 3 4).1,
    (c5_seek_order_independent shiftCap shiftCap_roundtrip 0
      [((1:Nat), (2:Int))] 3 4).2
      (buildChanges shiftCap 0 [((1:Nat), (2:Int))]) 3⟩

/-- C6 as stated is false: the reverse log's timestamps read
oldest-to-newest need not strictly increase.  Inserting two changes at
timestamp 5 and then querying timestamp 7 is a legal call sequence that
leaves two reverse-log entries both at timestamp 5. -/
theorem c6_counterexample :
    ¬ List.Pairwise (· < ·)
      (((runOps testCap (TimeMachine.new ⟨5⟩)
          [.change (.Add 1) 5, .change (.Add 2) 5,
            .value_at 7]).reverse.map (fun e => e.time)).reverse) := by
  decide

/-- C6 amended: read oldest-to-newest, the reverse log's timestamps are
non-decreasing (entries inserted at the same timestamp may repeat it),
for every machine reachable by any sequence of public operations. -/
theorem c6_reverse_log_monotone (cap : Cap S F R) (s0 : S)
    (ops : List (Op F T)) :
    List.Pairwise (· ≤ ·)
      (((runOps cap (TimeMachine.new s0) ops).reverse.map
          (fun e => e.time)).reverse) := by
  have h := (runOps_wf cap (TimeMachine.new s0) ops (new_wf s0)).2.1
  rw [List.pairwise_reverse, List.pairwise_map]
  exact h

/-- C8: inserting a second change at an already-used timestamp places it
nearest the current position - it becomes the head of the forward log
while the first change at that timestamp sits, already materialized, at
the back of the reverse log - and a subsequent seek to any timestamp not
below it applies the earlier entry first and the later entry last. -/
theorem c8_same_timestamp_tie_break (cap : Cap S F R) (hrt : RoundTrip cap)
    (s0 : S) (cs : List (T × F)) (d1 d2 : F) (t : T) :
    ((change cap (change cap (buildChanges cap s0 cs) d1 t).2 d2 t).2).forward.head?
        = some ⟨t, d2⟩ ∧
    ((change cap (change cap (buildChanges cap s0 cs) d1 t).2 d2 t).2).reverse.head?
        = some ⟨t, (d1, (cap.applyForward
            (move_to cap (buildChanges cap s0 cs) t).current d1).2)⟩ ∧
    (value_at cap
        ((change cap (change cap (buildChanges cap s0 cs) d1 t).2 d2 t).2)
        t).1
      = .ok (applyList cap s0
          ((((chronological cs).filter (fun c => c.1 ≤ t)).map
              (fun c => c.2)) ++ [d1, d2])) := by
  obtain ⟨hinv0, htl0⟩ := buildChanges_inv cap hrt s0 cs
  obtain ⟨_, hinv1, _⟩ := change_step cap hrt s0 _ d1 t hinv0
  refine ⟨?_, ?_, ?_⟩
  · rw [change_of_none cap _ d2 t hinv1.2.2]
    rfl
  · rw [change_change_same cap hrt s0 _ d1 d2 t hinv0]
    rfl
  · have hb2 : (change cap (change cap (buildChanges cap s0 cs) d1 t).2
        d2 t).2 = buildChanges cap s0 (cs ++ [(t, d1), (t, d2)]) :=
      (buildChanges_append_two cap s0 cs (t, d1) (t, d2)).symm
    rw [hb2]
    obtain ⟨hinvE, htlE⟩ :=
      buildChanges_inv cap hrt s0 (cs ++ [(t, d1), (t, d2)])
    obtain ⟨hokE, _, _⟩ := value_at_step cap hrt s0 _ t hinvE
    rw [hokE, htlE, chronological_append_two,
      filter_insertChange t d2 _
        (insertChange_sorted (t, d1) _ (chronological_sorted cs)),
      filter_insertChange t d1 _ (chronological_sorted cs)]
    simp [List.map_append]

theorem c8_witness :
    RoundTrip shiftCap ∧
    ((change shiftCap (change shiftCap
        (buildChanges shiftCap 0 ([] : List (Nat × Int))) 1 0).2
        2 0).2).forward.head? = some ⟨0, 2⟩ ∧
    ((change shiftCap (change shiftCap
        (buildChanges shiftCap 0 ([] : List (Nat × Int))) 1 0).2
        2 0).2).reverse.head?
      = some ⟨0, (1, (shiftCap.applyForward
          (move_to shiftCap
            (buildChanges shiftCap 0 ([] : List (Nat × Int))) 0).current
          1).2)⟩ ∧
    (value_at shiftCap ((change shiftCap (change shiftCap
        (buildChanges shiftCap 0 ([] : List (Nat × Int))) 1 0).2
        2 0).2) 0).1
      = .ok (applyList shiftCap 0
          ((((chronological ([] : List (Nat × Int))).filter
              (fun c => c.1 ≤ 0)).map (fun c => c.2)) ++ [1, 2])) :=
  ⟨shiftCap_roundtrip,
    (c8_same_timestamp_tie_break shiftCap shiftCap_roundtrip 0 [] 1 2 0).1,
    (c8_same_timestamp_tie_break shiftCap shiftCap_roundtrip 0 [] 1 2 0).2.1,
    (c8_same_timestamp_tie_break shiftCap shiftCap_roundtrip 0 [] 1 2 0).2.2⟩

/-- C10: every reverse-log timestamp is at most every forward-log
timestamp, on every machine reachable by any sequence of public
operations from a fresh machine. -/
theorem c10_cross_log_ordering (cap : Cap S F R) (s0 : S)
    (ops : List (Op F T)) (a : Timestamped T (F × R))
    (b : Timestamped T F)
    (ha : a ∈ (runOps cap (TimeMachine.new s0) ops).reverse)
    (hb : b ∈ (runOps cap (TimeMachine.new s0) ops).forward) :
    a.time ≤ b.time :=
  (runOps_wf cap (TimeMachine.new s0) ops (new_wf s0)).2.2 a ha b hb

theorem c10_witness :
    (⟨5, (.Add 1, .Sub 1)⟩ :
        Timestamped Nat (TestTimeMachineDelta × TestTimeMachineDelta))
      ∈ (runOps testCap (TimeMachine.new ⟨5⟩)
          [.change (.Add 1) 5, .change (.Add 2) 7,
            .value_at 6]).reverse ∧
    (⟨7, .Add 2⟩ : Timestamped Nat TestTimeMachineDelta)
      ∈ (runOps testCap (TimeMachine.new ⟨5⟩)
          [.change (.Add 1) 5, .change (.Add 2) 7,
            .value_at 6]).forward ∧
    (⟨5, (.Add 1, .Sub 1)⟩ :
        Timestamped Nat (TestTimeMachineDelta × TestTimeMachineDelta)).time
      ≤ (⟨7, .Add 2⟩ : Timestamped Nat TestTimeMachineDelta).time :=
  ⟨by decide, by decide,
    c10_cross_log_ordering testCap ⟨5⟩
      [.change (.Add 1) 5, .change (.Add 2) 7, .value_at 6]
      ⟨5, (.Add 1, .Sub 1)⟩ ⟨7, .Add 2⟩ (by decide) (by decide)⟩

/-- C3 as stated is false: after forget_ancient_history the reverse log
is not always exactly the previous reverse-log entries with timestamp at
or past the cut, because pending forward-log entries materialized by the
seek can survive it.  With one pending change at timestamp 5 and an empty
reverse log, forgetting up to 5 leaves one reverse-log entry, while the
previous reverse log had none at or past 5. -/
theorem c3_counterexample :
    ¬ ((forget_ancient_history testCap
          ((change testCap (TimeMachine.new ⟨5⟩) (.Add 1) 5).2)
          5).reverse.map (fun e => e.time)
        = (((change testCap (TimeMachine.new ⟨5⟩) (.Add 1) 5).2).reverse.filter
            (fun e => 5 ≤ e.time)).map (fun e => e.time)) := by
  decide

/-- C3 amended: after forget_ancient_history(until) on a well-formed
machine, the boundary equals until, every previously pending forward-log
entry with timestamp at most until has been applied to the current state
(exactly the later ones remain pending), and the reverse log read
oldest-to-newest consists of its previous entries with timestamp at least
until followed by the newly materialized entries at timestamp exactly
until; entries strictly below until are discarded. -/
theorem c3_forget_amended (cap : Cap S F R) (m : TimeMachine S F R T)
    (u : T) (hwf : WF m) :
    (forget_ancient_history cap m u).oldest = some u ∧
    (forget_ancient_history cap m u).forward
      = m.forward.filter (fun e => u < e.time) ∧
    (forget_ancient_history cap m u).current
      = applyList cap m.current
          ((m.forward.filter (fun e => e.time ≤ u)).map (fun e => e.data)) ∧
    ((forget_ancient_history cap m u).reverse.map stripR).reverse
      = ((m.reverse.map stripR).reverse).filter (fun c => u ≤ c.1)
          ++ (m.forward.map stripF).filter (fun c => c.1 = u) := by
  obtain ⟨hf, hr, hc⟩ := hwf
  obtain ⟨⟨hf1, hr1, hc1⟩, _, _⟩ := moveForwardTo_wf cap m u ⟨hf, hr, hc⟩
  refine ⟨rfl, ?_, ?_, ?_⟩
  · show (moveForwardAux cap u m.forward m.current m.reverse).2.2 = _
    rw [moveForwardAux_forward, sorted_dropWhile_filter u _ hf]
  · show (moveForwardAux cap u m.forward m.current m.reverse).1 = _
    rw [moveForwardAux_current, sorted_takeWhile_filter u _ hf]
  · show ((dropOld u
        (moveForwardTo cap m u).reverse.reverse).reverse.map stripR).reverse
      = _
    have hasc : List.Pairwise (fun a b => a.time ≤ b.time)
        (moveForwardTo cap m u).reverse.reverse :=
      List.pairwise_reverse.2 hr1
    rw [dropOld_eq_filter u _ hasc, List.map_reverse, List.reverse_reverse,
      ← filter_map_strip stripR (fun c => decide (u ≤ c.1))
        (fun e => decide (u ≤ e.time)) (fun x => rfl)]
    show (((moveForwardTo cap m u).reverse.reverse.map stripR).filter
        (fun c => u ≤ c.1)) = _
    rw [List.map_reverse]
    show (((moveForwardAux cap u m.forward m.current m.reverse).2.1.map
        stripR).reverse.filter (fun c => u ≤ c.1)) = _
    rw [moveForwardAux_reverse_strip, List.reverse_append,
      List.reverse_reverse, List.filter_append]
    congr 1
    rw [sorted_takeWhile_filter u _ hf,
      ← filter_map_strip stripF (fun c => decide (c.1 ≤ u))
        (fun e => decide (e.time ≤ u)) (fun x => rfl),
      List.filter_filter]
    refine List.filter_congr ?_
    intro x hx
    rw [← Bool.decide_and]
    exact decide_eq_decide.2
      ⟨fun h => le_antisymm h.2 h.1, fun h => ⟨le_of_eq h.symm, le_of_eq h⟩⟩

theorem c3_witness :
    WF ((change testCap (TimeMachine.new ⟨5⟩) (.Add 1) 5).2) ∧
    ((forget_ancient_history testCap
        ((change testCap (TimeMachine.new ⟨5⟩) (.Add 1) 5).2) 5).oldest
      = some 5 ∧
    (forget_ancient_history testCap
        ((change testCap (TimeMachine.new ⟨5⟩) (.Add 1) 5).2) 5).forward
      = ((change testCap (TimeMachine.new ⟨5⟩) (.Add 1) 5).2).forward.filter
          (fun e => 5 < e.time) ∧
    (forget_ancient_history testCap
        ((change testCap (TimeMachine.new ⟨5⟩) (.Add 1) 5).2) 5).current
      = applyList testCap
          ((change testCap (TimeMachine.new ⟨5⟩) (.Add 1) 5).2).current
          ((((change testCap (TimeMachine.new ⟨5⟩) (.Add 1) 5).2).forward.filter
              (fun e => e.time ≤ 5)).map (fun e => e.data)) ∧
    ((forget_ancient_history testCap
        ((change testCap (TimeMachine.new ⟨5⟩) (.Add 1) 5).2)
        5).reverse.map stripR).reverse
      = ((((change testCap (TimeMachine.new ⟨5⟩) (.Add 1) 5).2).reverse.map
            stripR).reverse).filter (fun c => 5 ≤ c.1)
          ++ ((((change testCap (TimeMachine.new ⟨5⟩) (.Add 1) 5).2).forward.map
              stripF).filter (fun c => c.1 = 5))) :=
  ⟨by unfold WF crossOrdered; decide,
    c3_forget_amended testCap
      ((change testCap (TimeMachine.new ⟨5⟩) (.Add 1) 5).2) 5
      (by unfold WF crossOrdered; decide)⟩
